import Mathlib

/-!
Verification of the middle-wasm guest library: the boundary memory-ownership
protocol (`value_to_host`, `unforget`, `vec_parts_to_host`,
`vec_parts_from_host`), the value codec used at the boundary, the
`Resumable` short-circuit primitive with `pause`, and the entry-point
synthesizers `middle_fn_inner` (macros/src/function.rs) and
`middle_workflow_inner` (macros/src/workflow.rs).

Machine integers are modelled as `Nat` (with explicit bounds where overflow
or narrowing matters), guest linear memory as an explicit allocation list,
and the proc-macro synthesizers as functions over a shallow embedding of the
`syn` abstract syntax they inspect.
-/

namespace MiddleWasm

/-! ## Byte-level helpers

Little-endian byte strings model Rust's `u32::to_le_bytes` /
`u32::from_le_bytes`; big-endian strings model the network byte order used
by the MessagePack wire format. -/

/-- Little-endian bytes of `n`, `k` bytes long (low byte first), as in
`u32::to_le_bytes`. -/
def leBytes : Nat → Nat → List Nat
  | 0, _ => []
  | k + 1, n => n % 256 :: leBytes k (n / 256)

/-- Value of a little-endian byte string, as in `u32::from_le_bytes`. -/
def leToNat : List Nat → Nat
  | [] => 0
  | b :: bs => b + 256 * leToNat bs

/-- Big-endian bytes of `n`, `k` bytes long (high byte first). -/
def beBytes (k n : Nat) : List Nat := (leBytes k n).reverse

/-- Value of a big-endian byte string. -/
def beToNat (bs : List Nat) : Nat := leToNat bs.reverse

/-! ## Value codec

Modelled from the spec: the codec itself lives in the external `rmp_serde`
crate (MessagePack), not under src/; src/src/lib.rs only calls
`rmp_serde::encode::to_vec` and `rmp_serde::decode::from_slice`, and the
generated entry points always serialize through `serde_json::Value`.  The
model below follows the spec's description — a deterministic,
self-describing binary encoding with map/array/scalar tags — using the
MessagePack tag assignments (positive/negative fixint, int64, fixstr, str8,
str32, fixarray, array32, fixmap, map32, nil, booleans). -/

/-- A structured value crossing the boundary: the shape of a
`serde_json::Value` (null, boolean, integer scalar, string, sequence,
map/record).  Strings are byte lists (UTF-8 at the wire level); an absent
optional is `nil`. -/
inductive MValue : Type where
  | nil : MValue
  | bool (b : Bool) : MValue
  | int (n : Int) : MValue
  | str (s : List Nat) : MValue
  | arr (items : List MValue) : MValue
  | obj (fields : List (List Nat × MValue)) : MValue

mutual
/-- A value is supported when every integer fits in a signed 64-bit word and
every string, sequence and map length fits in the 32-bit length fields of
the wire format. -/
def supportedB : MValue → Bool
  | .nil => true
  | .bool _ => true
  | .int n => decide (-(2 ^ 63) ≤ n) && decide (n < 2 ^ 63)
  | .str s => decide (s.length < 2 ^ 32)
  | .arr items => decide (items.length < 2 ^ 32) && supportedListB items
  | .obj fields => decide (fields.length < 2 ^ 32) && supportedFieldsB fields

/-- All sequence elements are supported. -/
def supportedListB : List MValue → Bool
  | [] => true
  | v :: vs => supportedB v && supportedListB vs

/-- All map keys have lengths fitting the wire format and all map values are
supported. -/
def supportedFieldsB : List (List Nat × MValue) → Bool
  | [] => true
  | (k, v) :: fs => decide (k.length < 2 ^ 32) && supportedB v && supportedFieldsB fs
end

/-- Header bytes announcing a string of `len` bytes: fixstr, str8 or str32. -/
def strHeader (len : Nat) : List Nat :=
  if len < 32 then [0xa0 + len]
  else if len < 256 then [0xd9, len]
  else 0xdb :: beBytes 4 len

/-- Header bytes announcing a sequence of `n` elements: fixarray or array32. -/
def arrHeader (n : Nat) : List Nat :=
  if n < 16 then [0x90 + n]
  else 0xdd :: beBytes 4 n

/-- Header bytes announcing a map of `n` key/value pairs: fixmap or map32. -/
def mapHeader (n : Nat) : List Nat :=
  if n < 16 then [0x80 + n]
  else 0xdf :: beBytes 4 n

/-- Encoding of an integer scalar: positive fixint, negative fixint, or the
int64 form (tag 0xd3 followed by 8 big-endian two's-complement bytes). -/
def encodeInt (n : Int) : List Nat :=
  if 0 ≤ n ∧ n ≤ 127 then [n.toNat]
  else if -32 ≤ n ∧ n < 0 then [(n + 256).toNat]
  else 0xd3 :: beBytes 8 (n % (2 ^ 64 : Int)).toNat

mutual
/-- Encoding performed on the guest side of the boundary before
`value_to_host` hands the bytes over: the self-describing tagged binary
form of a value. -/
def encode : MValue → List Nat
  | .nil => [0xc0]
  | .bool false => [0xc2]
  | .bool true => [0xc3]
  | .int n => encodeInt n
  | .str s => strHeader s.length ++ s
  | .arr items => arrHeader items.length ++ encodeList items
  | .obj fields => mapHeader fields.length ++ encodeFields fields

/-- Concatenated encodings of the elements of a sequence, in order. -/
def encodeList : List MValue → List Nat
  | [] => []
  | v :: vs => encode v ++ encodeList vs

/-- Concatenated encodings of the fields of a map, in order: each key as a
string followed by its value. -/
def encodeFields : List (List Nat × MValue) → List Nat
  | [] => []
  | (k, v) :: fs => (strHeader k.length ++ k) ++ (encode v ++ encodeFields fs)
end

/-- Reads exactly `k` bytes from the front of the stream; fails when the
stream is shorter. -/
def readN (k : Nat) (bs : List Nat) : Option (List Nat × List Nat) :=
  if bs.length < k then none else some (bs.take k, bs.drop k)

/-- Two's-complement reading of an unsigned 64-bit value. -/
def decodeI64 (u : Nat) : Int :=
  if u < 2 ^ 63 then (u : Int) else (u : Int) - 2 ^ 64

/-- Decodes one string (map key): fixstr, str8 or str32 form.  Map keys are
deserialized as strings when the target is a map/record, so a non-string
key tag fails. -/
def decodeKey : List Nat → Option (List Nat × List Nat)
  | [] => none
  | b :: bs =>
    if 0xa0 ≤ b ∧ b ≤ 0xbf then readN (b - 0xa0) bs
    else if b = 0xd9 then
      match bs with
      | len :: bs1 => readN len bs1
      | [] => none
    else if b = 0xdb then
      match readN 4 bs with
      | some (lb, r) => readN (beToNat lb) r
      | none => none
    else none

/-- Decodes `n` consecutive values with the element decoder `dv`. -/
def decodeItemsF (dv : List Nat → Option (MValue × List Nat)) :
    Nat → List Nat → Option (List MValue × List Nat)
  | 0, bs => some ([], bs)
  | n + 1, bs =>
    match dv bs with
    | some (v, r) => (decodeItemsF dv n r).map (fun p => (v :: p.1, p.2))
    | none => none

/-- Decodes `n` consecutive key/value pairs with the value decoder `dv`. -/
def decodePairsF (dv : List Nat → Option (MValue × List Nat)) :
    Nat → List Nat → Option (List (List Nat × MValue) × List Nat)
  | 0, bs => some ([], bs)
  | n + 1, bs =>
    match decodeKey bs with
    | some (k, r) =>
      match dv r with
      | some (v, r1) => (decodePairsF dv n r1).map (fun p => ((k, v) :: p.1, p.2))
      | none => none
    | none => none

/-- Decodes one value from the front of the stream, dispatching on the tag
byte; `fuel` bounds the nesting depth and only decreases when entering a
container, so any fuel of at least the stream length suffices. -/
def decodeVal : Nat → List Nat → Option (MValue × List Nat)
  | 0, _ => none
  | _ + 1, [] => none
  | fuel + 1, b :: bs =>
    if b ≤ 0x7f then some (.int (b : Int), bs)
    else if 0x80 ≤ b ∧ b ≤ 0x8f then
      (decodePairsF (decodeVal fuel) (b - 0x80) bs).map (fun p => (.obj p.1, p.2))
    else if 0x90 ≤ b ∧ b ≤ 0x9f then
      (decodeItemsF (decodeVal fuel) (b - 0x90) bs).map (fun p => (.arr p.1, p.2))
    else if 0xa0 ≤ b ∧ b ≤ 0xbf then
      (readN (b - 0xa0) bs).map (fun p => (.str p.1, p.2))
    else if b = 0xc0 then some (.nil, bs)
    else if b = 0xc2 then some (.bool false, bs)
    else if b = 0xc3 then some (.bool true, bs)
    else if b = 0xd3 then
      match readN 8 bs with
      | some (u, r) => some (.int (decodeI64 (beToNat u)), r)
      | none => none
    else if b = 0xd9 then
      match bs with
      | len :: bs1 => (readN len bs1).map (fun p => (.str p.1, p.2))
      | [] => none
    else if b = 0xdb then
      match readN 4 bs with
      | some (lb, r) => (readN (beToNat lb) r).map (fun p => (.str p.1, p.2))
      | none => none
    else if b = 0xdd then
      match readN 4 bs with
      | some (lb, r) => (decodeItemsF (decodeVal fuel) (beToNat lb) r).map
          (fun p => (.arr p.1, p.2))
      | none => none
    else if b = 0xdf then
      match readN 4 bs with
      | some (lb, r) => (decodePairsF (decodeVal fuel) (beToNat lb) r).map
          (fun p => (.obj p.1, p.2))
      | none => none
    else if 0xe0 ≤ b ∧ b ≤ 0xff then some (.int ((b : Int) - 256), bs)
    else none

/-- Tag bytes the decoder recognizes at the head of a value. -/
def validTag (b : Nat) : Bool :=
  decide (b ≤ 0x7f) || decide (0x80 ≤ b ∧ b ≤ 0x8f) || decide (0x90 ≤ b ∧ b ≤ 0x9f) ||
  decide (0xa0 ≤ b ∧ b ≤ 0xbf) || decide (b = 0xc0) || decide (b = 0xc2) ||
  decide (b = 0xc3) || decide (b = 0xd3) || decide (b = 0xd9) || decide (b = 0xdb) ||
  decide (b = 0xdd) || decide (b = 0xdf) || decide (0xe0 ≤ b ∧ b ≤ 0xff)

/-- Decoding of a byte buffer: reads one value off the front and, like
`rmp_serde::decode::from_slice`, ignores any trailing bytes (the buffer
handed across the boundary is capacity-sized, so bytes after the encoded
payload are uninitialized).  Fails — the `DecodeError` of the spec — when
no value can be read. -/
def decode (bytes : List Nat) : Option MValue :=
  (decodeVal (bytes.length + 1) bytes).map Prod.fst

/-! ## Boundary memory manager

Guest linear memory is modelled as a list of allocation slots; an address is
a slot index, a freed slot holds `none`.  A Rust `Vec` is its initialized
byte content plus its capacity — `value_to_host` hands the host `(ptr, cap)`
from `into_raw_parts`, discarding the initialized length. -/

/-- A guest-owned buffer: the initialized bytes and the allocation's
capacity.  Mirrors the `(ptr, len, cap)` triple of `Vec::into_raw_parts`
with the address factored out into the heap. -/
structure RVec where
  data : List Nat
  cap : Nat

/-- Guest linear memory: one slot per allocation, `none` once released. -/
structure Heap where
  blocks : List (Option RVec)

/-- Reserves a fresh slot holding `v` and returns its address. -/
def Heap.alloc (h : Heap) (v : RVec) : Heap × Nat :=
  (⟨h.blocks ++ [some v]⟩, h.blocks.length)

/-- Releases the slot at `addr`. -/
def Heap.free (h : Heap) (addr : Nat) : Heap :=
  ⟨h.blocks.set addr none⟩

/-- The live buffer at `addr`, if any. -/
def Heap.get (h : Heap) (addr : Nat) : Option RVec :=
  h.blocks.getD addr none

/-- Modelled from the spec and `rmp_serde`: `to_vec` writes into a `Vec`
allocated `with_capacity(128)`, so a payload of at most 128 bytes sits in a
buffer of capacity exactly 128. -/
def rmp_initial_capacity : Nat := 128

/-- Embedding of `value_to_host` (src/src/lib.rs lines 32-46): the encoded
buffer `bytes` (living in a `Vec` of capacity `cap`, `bytes.length ≤ cap`)
is handed to the host.  `into_raw_parts` keeps the allocation alive — the
slot stays in the heap — and the source returns `(ptr as u32, cap as u32)`:
the capacity, with the initialized length `_len` discarded. -/
def value_to_host (h : Heap) (bytes : List Nat) (cap : Nat) : Heap × (Nat × Nat) :=
  let (h1, addr) := h.alloc ⟨bytes, cap⟩
  (h1, (addr, cap))

/-- Embedding of `unforget` (src/src/lib.rs lines 67-72): rebuilds the
vector from its raw parts and drops it, releasing the slot. -/
def unforget (h : Heap) (offset _size : Nat) : Heap :=
  h.free offset

/-- Embedding of the slice-decoding step of `value_from_host`
(src/src/lib.rs lines 76-81): `bytes` is the `size`-byte buffer
reconstructed at `offset`, and `rmp_serde::decode::from_slice` either
reads one value from its front or fails; `expect` aborts the call on
failure, modelled by `none`. -/
def value_from_host (bytes : List Nat) : Option MValue :=
  decode bytes

/-- Embedding of `vec_parts_to_host` (src/src/lib.rs lines 51-64): packs
`(offset, size)` into one boxed 8-byte record — 4 little-endian bytes of
`offset` then 4 little-endian bytes of `size` — and returns the record's
own address. -/
def vec_parts_to_host (h : Heap) (offset size : Nat) : Heap × Nat :=
  h.alloc ⟨leBytes 4 offset ++ leBytes 4 size, 8⟩

/-- Embedding of `vec_parts_from_host` (src/src/lib.rs lines 84-91): reads
the boxed 8-byte record at `addr`, recovering `(offset, size)` from its two
little-endian halves; the box is dropped afterwards, releasing the slot. -/
def vec_parts_from_host (h : Heap) (addr : Nat) : Heap × Option (Nat × Nat) :=
  match h.get addr with
  | some blk => (h.free addr, some (leToNat (blk.data.take 4), leToNat (blk.data.drop 4)))
  | none => (h, none)

/-! ## Resumable primitive and the pause host call -/

/-- Embedding of the two-state result type (src/src/lib.rs lines 248-252). -/
inductive Resumable (T : Type u) : Type u where
  | Pause : Resumable T
  | Ready (t : T) : Resumable T

/-- Embedding of `std::ops::ControlFlow`, the result of `Try::branch`. -/
inductive CtrlFlow (B : Type u) (C : Type v) : Type (max u v) where
  | Break (b : B) : CtrlFlow B C
  | Continue (c : C) : CtrlFlow B C

/-- Embedding of `std::convert::Infallible`: an uninhabited type. -/
def Infallible : Type := Empty

/-- Embedding of `<Resumable<T> as Try>::branch` (src/src/lib.rs lines
274-279): `Pause` breaks with the `Pause` residual, `Ready` continues with
the inner value. -/
def Resumable.branch : Resumable T → CtrlFlow (Resumable Infallible) T
  | .Pause => .Break .Pause
  | .Ready x => .Continue x

/-- Embedding of `<Resumable<T> as FromResidual>::from_residual`
(src/src/lib.rs lines 254-263): the only inhabited residual is `Pause`;
the `Ready` arm is the source's unreachable `panic!`, here the elimination
of `Infallible`. -/
def Resumable.fromResidual : Resumable Infallible → Resumable T
  | .Pause => .Pause
  | .Ready x => x.elim

/-- Embedding of `<Resumable<T> as Try>::from_output` (src/src/lib.rs lines
270-272). -/
def Resumable.fromOutput (x : T) : Resumable T := .Ready x

/-- Desugaring of Rust's `?` operator on a `Resumable` value followed by the
rest of the enclosing body `k`: branch, break early through
`from_residual`, or continue into `k`. -/
def Resumable.andThen (r : Resumable A) (k : A → Resumable B) : Resumable B :=
  match r.branch with
  | .Break res => Resumable.fromResidual res
  | .Continue x => k x

/-- Embedding of `std::time::Duration`: seconds plus a nanosecond part. -/
structure MDuration where
  secs : Nat
  nanos : Nat

/-- Embedding of `Duration::as_millis`. -/
def MDuration.as_millis (d : MDuration) : Nat :=
  d.secs * 1000 + d.nanos / 1000000

/-- Embedding of `pause` (src/src/lib.rs lines 284-292): converts the
duration to milliseconds, narrows to `u64` (`try_into().unwrap()` panics —
`none` — when the count does not fit), calls the imported `host_pause`
oracle with that count, and maps reply `0` to `Pause`, anything else to
`Ready(())`. -/
def pause (host_pause : Nat → Nat) (d : MDuration) : Option (Resumable Unit) :=
  let milis := d.as_millis
  if milis < 2 ^ 64 then
    some (match host_pause milis with
      | 0 => Resumable.Pause
      | _ + 1 => Resumable.Ready ())
  else none

/-! ## Entry-point synthesizers

Shallow embedding of the parts of the `syn` abstract syntax the two
proc macros inspect, and of the token templates they emit.  The generated
invocation entry point is modelled as the sequence of statements of its
body in a small Rust-expression syntax tree, mirroring the `quote!`
templates of macros/src/function.rs and macros/src/workflow.rs
statement by statement. -/

mutual
/-- Embedding of `syn::Type`: a path type (the only shape the workflow
return check inspects) or any other type. -/
inductive Ty : Type where
  | path (segments : List PathSegment) : Ty
  | otherTy : Ty

/-- Embedding of `syn::PathSegment`: an identifier with its generic
arguments. -/
inductive PathSegment : Type where
  | mk (ident : String) (args : PathArguments) : PathSegment

/-- Embedding of `syn::PathArguments`. -/
inductive PathArguments : Type where
  | noArgs : PathArguments
  | angleBracketed (args : List GenericArg) : PathArguments
  | parenthesized : PathArguments

/-- Embedding of `syn::GenericArgument`: a type argument or any other
argument (lifetime, const, binding, ...). -/
inductive GenericArg : Type where
  | type (t : Ty) : GenericArg
  | nonType : GenericArg
end

/-- Embedding of `syn::Pat` as matched by the synthesizers: a plain
name-bound identifier, or any other (destructuring) pattern. -/
inductive Pat : Type where
  | ident (name : String) : Pat
  | otherPat : Pat

/-- Embedding of `syn::FnArg`: an implicit receiver (`self`) or a typed
`pattern: type` parameter. -/
inductive FnArg : Type where
  | receiver : FnArg
  | typed (pat : Pat) (ty : Ty) : FnArg

/-- Embedding of `syn::ReturnType`: absent (`Default`) or an explicit
type. -/
inductive ReturnType : Type where
  | default : ReturnType
  | type (t : Ty) : ReturnType

/-- Embedding of `syn::Signature`: the function name, its ordered
parameters, and its return type. -/
structure Signature where
  ident : String
  inputs : List FnArg
  output : ReturnType

/-- Embedding of `syn::ItemFn` together with the doc string `extract_doc`
pulls from its attributes. -/
structure ItemFn where
  sig : Signature
  doc : String

/-- Expressions of the generated entry-point body. -/
inductive RExpr : Type where
  | var (name : String) : RExpr
  | field (base : RExpr) (name : String) : RExpr
  | call (f : String) (args : List RExpr) : RExpr
  | structTuple (name : String) (arg : RExpr) : RExpr

/-- Statements of the generated entry-point body. -/
inductive RStmt : Type where
  | letVar (name : String) (rhs : RExpr) : RStmt
  | letPair (fst snd : String) (rhs : RExpr) : RStmt
  | ret (e : RExpr) : RStmt

/-- The generated Input Envelope struct: name and ordered fields. -/
structure StructDef where
  name : String
  fields : List (String × Ty)

/-- The generated single-field (tuple) Output Envelope struct. -/
structure TupleStructDef where
  name : String
  inner : Ty

/-- The synthesis output: both envelope types, both entry-point names, and
the invocation entry point's body. -/
structure Generated where
  inStruct : StructDef
  outStruct : TupleStructDef
  entryName : String
  introspectName : String
  entryBody : List RStmt

/-- Panic message for a receiver parameter. -/
def errReceiver : String := "exported functions must not have `self` as a first argument"

/-- Panic message for a destructuring parameter pattern. -/
def errPattern : String := "unexpected parameter in function type signature"

/-- Panic message for a missing return type. -/
def errNoReturn : String := "exported functions must have an explicit return type"

/-- Panic message for an empty return-type path. -/
def errEmptyPath : String := "Return type missing path. Workflows must return Resumable<...>"

/-- Panic message for a non-type generic argument. -/
def errNonTypeArg : String := ". Workflows must return Resumable<...>"

/-- Panic message for a generic argument count other than one. -/
def errArgCount : String :=
  "Resumable<T> must be called with a single argument. Workflows must return Resumable<...>"

/-- Panic message for missing angle brackets. -/
def errNoAngle : String :=
  "Resumable<T> must be called with angle brackets. Workflows must return Resumable<...>"

/-- Panic message for a return-type path not ending in Resumable. -/
def errNotResumable : String := "Incorrect return type. Workflows must return Resumable<...>"

/-- Panic message for a non-path return type. -/
def errNotPath : String := "Return type is unexpected. Workflows must return Resumable<...>"

/-- Embedding of the per-parameter match inside the synthesizers'
`for_each` (macros/src/function.rs lines 23-49): a receiver panics, a typed
parameter must be bound by a plain identifier. -/
def processArg : FnArg → Except String (String × Ty)
  | .receiver => .error errReceiver
  | .typed p ty =>
    match p with
    | .ident name => .ok (name, ty)
    | .otherPat => .error errPattern

/-- Processes the whole parameter list in declared order, collecting
`name: type` pairs; the first offending parameter aborts synthesis. -/
def processArgs : List FnArg → Except String (List (String × Ty))
  | [] => .ok []
  | a :: rest =>
    match processArg a with
    | .error e => .error e
    | .ok p =>
      match processArgs rest with
      | .error e => .error e
      | .ok ps => .ok (p :: ps)

/-- Body of the invocation entry point emitted by `middle_fn_inner`
(macros/src/function.rs lines 92-113), statement by statement: decode the
input envelope, call the user function binding envelope fields positionally,
wrap the result in the Output Envelope, serialize, transfer out, pack the
block descriptor. -/
def fnEntryBody (fnName outStructName : String) (argNames : List String) : List RStmt :=
  [ .letVar "input_json" (.call "value_from_host" [.var "offset", .var "size"]),
    .letVar "input" (.call "serde_json::from_value" [.var "input_json"]),
    .letVar "output" (.call fnName (argNames.map (fun a => RExpr.field (.var "input") a))),
    .letVar "output" (.structTuple outStructName (.var "output")),
    .letVar "output_json" (.call "serde_json::value::to_value" [.var "output"]),
    .letPair "offset" "size" (.call "value_to_host" [.var "output_json"]),
    .letVar "offset" (.call "vec_parts_to_host" [.var "offset", .var "size"]),
    .ret (.var "offset") ]

/-- Body of the invocation entry point emitted by `middle_workflow_inner`
(macros/src/workflow.rs lines 120-139): identical to the plain-function
body except that the user function's output is serialized directly,
without being wrapped in the Output Envelope. -/
def workflowEntryBody (fnName : String) (argNames : List String) : List RStmt :=
  [ .letVar "input_json" (.call "value_from_host" [.var "offset", .var "size"]),
    .letVar "input" (.call "serde_json::from_value" [.var "input_json"]),
    .letVar "output" (.call fnName (argNames.map (fun a => RExpr.field (.var "input") a))),
    .letVar "output_json" (.call "serde_json::value::to_value" [.var "output"]),
    .letPair "offset" "size" (.call "value_to_host" [.var "output_json"]),
    .letVar "offset" (.call "vec_parts_to_host" [.var "offset", .var "size"]),
    .ret (.var "offset") ]

/-- Embedding of `middle_fn_inner` (macros/src/function.rs lines 12-134):
validates the descriptor (parameters first, then the return type, in source
evaluation order) and emits the envelope types, the deterministically named
entry points, and the invocation body. -/
def middle_fn_inner (f : ItemFn) : Except String Generated :=
  match processArgs f.sig.inputs with
  | .error e => .error e
  | .ok params =>
    match f.sig.output with
    | .default => .error errNoReturn
    | .type out_sig =>
      .ok
        { inStruct := ⟨"UserFnIn__" ++ f.sig.ident, params⟩
          outStruct := ⟨"UserFnOut__" ++ f.sig.ident, out_sig⟩
          entryName := "user_fn__" ++ f.sig.ident
          introspectName := "user_fn_info__" ++ f.sig.ident
          entryBody :=
            fnEntryBody f.sig.ident ("UserFnOut__" ++ f.sig.ident) (params.map Prod.fst) }

/-- Embedding of the workflow return-type check (macros/src/workflow.rs
lines 53-86): the declared return type must be a path type whose last
segment is `Resumable` applied in angle brackets to exactly one type
argument; that inner type is extracted. -/
def extractResumableInner : Ty → Except String Ty
  | .otherTy => .error errNotPath
  | .path segments =>
    match segments.getLast? with
    | none => .error errEmptyPath
    | some (.mk ident args) =>
      if ident = "Resumable" then
        match args with
        | .angleBracketed gargs =>
          match gargs with
          | [.type t] => .ok t
          | [_] => .error errNonTypeArg
          | _ => .error errArgCount
        | _ => .error errNoAngle
      else .error errNotResumable

/-- Embedding of `middle_workflow_inner` (macros/src/workflow.rs lines
9-160): validates parameters, then requires a `Resumable<T>` return type
and builds the Output Envelope around the inner `T`; the invocation body
serializes the user function's `Resumable` result without wrapping it. -/
def middle_workflow_inner (f : ItemFn) : Except String Generated :=
  match processArgs f.sig.inputs with
  | .error e => .error e
  | .ok params =>
    match f.sig.output with
    | .default => .error errNoReturn
    | .type t =>
      match extractResumableInner t with
      | .error e => .error e
      | .ok out_sig =>
        .ok
          { inStruct := ⟨"UserWorkflowIn__" ++ f.sig.ident, params⟩
            outStruct := ⟨"UserWorkflowOut__" ++ f.sig.ident, out_sig⟩
            entryName := "user_workflow__" ++ f.sig.ident
            introspectName := "user_workflow_info__" ++ f.sig.ident
            entryBody := workflowEntryBody f.sig.ident (params.map Prod.fst) }

/-- Whether a parameter is an implicit receiver. -/
def FnArg.isReceiver : FnArg → Bool
  | .receiver => true
  | .typed _ _ => false

/-- Whether a parameter is bound by a destructuring (non-identifier)
pattern. -/
def FnArg.isDestructuring : FnArg → Bool
  | .typed .otherPat _ => true
  | _ => false

/-- Whether a parameter passes the synthesizers' per-parameter check. -/
def argAccepted : FnArg → Bool
  | .typed (.ident _) _ => true
  | _ => false

/-- Whether the descriptor's first parameter is an implicit receiver. -/
def firstIsReceiver (f : ItemFn) : Bool :=
  match f.sig.inputs with
  | .receiver :: _ => true
  | _ => false

/-- Whether the descriptor declares an explicit return type. -/
def hasExplicitReturn (f : ItemFn) : Bool :=
  match f.sig.output with
  | .default => false
  | .type _ => true

/-- The `name: type` pairs declared by the parameter list, in order,
independent of the synthesizers' processing. -/
def declaredParams : List FnArg → List (String × Ty)
  | [] => []
  | .typed (.ident n) ty :: rest => (n, ty) :: declaredParams rest
  | _ :: rest => declaredParams rest

/-- Whether a statement wraps a value in the tuple struct `structName`. -/
def RStmt.wraps (structName : String) : RStmt → Bool
  | .letVar _ (.structTuple n _) => n = structName
  | _ => false

/-- A type has the accepted workflow return shape — its path's last segment
is `Resumable` applied in angle brackets to exactly the one type argument
`inner` — stated declaratively, to be compared with the source's check. -/
def IsResumableForm (t inner : Ty) : Prop :=
  ∃ segs, t = Ty.path segs ∧
    segs.getLast? = some (.mk "Resumable" (.angleBracketed [.type inner]))

/-- The descriptor's declared return type has the accepted workflow shape
with inner type `inner`. -/
def RetResumableForm (f : ItemFn) (inner : Ty) : Prop :=
  ∃ t, f.sig.output = ReturnType.type t ∧ IsResumableForm t inner

/-! ## Concrete instances

Example descriptors and values, used to evaluate the definitions above on
the inputs named by the spec's examples. -/

/-- The Rust type `String` as a path type. -/
def tyString : Ty := .path [.mk "String" .noArgs]

/-- The Rust type `u32` as a path type. -/
def tyU32 : Ty := .path [.mk "u32" .noArgs]

/-- The Rust type `Resumable<u32>` as a path type. -/
def tyResumableU32 : Ty := .path [.mk "Resumable" (.angleBracketed [.type tyU32])]

/-- The spec's example descriptor `f(a: string, b: integer) -> integer`. -/
def exFnAdd : ItemFn :=
  ⟨⟨"f", [.typed (.ident "a") tyString, .typed (.ident "b") tyU32], .type tyU32⟩, "adds one"⟩

/-- The synthesis output for `exFnAdd`, written out literally. -/
def exFnAddGen : Generated :=
  ⟨⟨"UserFnIn__f", [("a", tyString), ("b", tyU32)]⟩, ⟨"UserFnOut__f", tyU32⟩,
    "user_fn__f", "user_fn_info__f", fnEntryBody "f" "UserFnOut__f" ["a", "b"]⟩

/-- A descriptor with no explicit return type. -/
def exFnNoRet : ItemFn := ⟨⟨"g", [.typed (.ident "a") tyString], .default⟩, ""⟩

/-- A workflow descriptor `w(a: u32) -> Resumable<u32>`. -/
def exWorkflow : ItemFn := ⟨⟨"w", [.typed (.ident "a") tyU32], .type tyResumableU32⟩, "waits"⟩

/-- The synthesis output for `exWorkflow`, written out literally. -/
def exWorkflowGen : Generated :=
  ⟨⟨"UserWorkflowIn__w", [("a", tyU32)]⟩, ⟨"UserWorkflowOut__w", tyU32⟩,
    "user_workflow__w", "user_workflow_info__w", workflowEntryBody "w" ["a"]⟩

/-- A workflow descriptor whose return type is not `Resumable<...>`. -/
def exWorkflowBadRet : ItemFn := ⟨⟨"r", [.typed (.ident "a") tyU32], .type tyU32⟩, ""⟩

/-- A nested example value exercising every supported shape: a map with a
scalar field and a sequence field holding a string, an absent optional, a
boolean and a negative integer. -/
def exValue : MValue :=
  .obj [([97], .int 5), ([98], .arr [.str [104, 105], .nil, .bool true, .int (-3)])]

/-- A two-byte example string value. -/
def exStrValue : MValue := .str [65, 66]

/-- A 100-millisecond duration (100000000 nanoseconds). -/
def exDuration : MDuration := ⟨0, 100000000⟩

/-! ## Byte-string lemmas -/

theorem leBytes_length (k : Nat) : ∀ n, (leBytes k n).length = k := by
  induction k with
  | zero => intro n; rfl
  | succ k ih => intro n; simp [leBytes, ih]

theorem leToNat_leBytes (k : Nat) : ∀ n, leToNat (leBytes k n) = n % 256 ^ k := by
  induction k with
  | zero => intro n; simp [leBytes, leToNat, Nat.mod_one]
  | succ k ih =>
    intro n
    rw [leBytes, leToNat, ih (n / 256), pow_succ', Nat.mod_mul]

theorem beBytes_length (k n : Nat) : (beBytes k n).length = k := by
  simp [beBytes, leBytes_length]

theorem beToNat_beBytes (k n : Nat) : beToNat (beBytes k n) = n % 256 ^ k := by
  rw [beBytes, beToNat, List.reverse_reverse, leToNat_leBytes]

theorem readN_append (k : Nat) (xs rest : List Nat) (h : xs.length = k) :
    readN k (xs ++ rest) = some (xs, rest) := by
  subst h
  rw [readN, if_neg (by simp), List.take_left, List.drop_left]

theorem readN_eq_some (k : Nat) (bs : List Nat) (out : List Nat × List Nat)
    (h : readN k bs = some out) : bs = out.1 ++ out.2 ∧ out.1.length = k := by
  rw [readN] at h
  split at h
  · exact absurd h (by simp)
  · rename_i hk
    obtain rfl : (bs.take k, bs.drop k) = out := by injection h
    exact ⟨(List.take_append_drop k bs).symm, List.length_take_of_le (by omega)⟩

theorem readN_extend (k : Nat) (bs q : List Nat) (out : List Nat × List Nat)
    (h : readN k bs = some out) : readN k (bs ++ q) = some (out.1, out.2 ++ q) := by
  obtain ⟨hsplit, hlen⟩ := readN_eq_some k bs out h
  rw [hsplit, List.append_assoc]
  exact readN_append _ _ _ hlen

theorem pow256_4 : (256 : Nat) ^ 4 = 2 ^ 32 := by norm_num

theorem pow256_8 : (256 : Nat) ^ 8 = 2 ^ 64 := by norm_num

/-! ## Codec lemmas -/

theorem strHeader_length_pos (len : Nat) : 1 ≤ (strHeader len).length := by
  rw [strHeader]; split_ifs <;> simp

theorem arrHeader_length_pos (n : Nat) : 1 ≤ (arrHeader n).length := by
  rw [arrHeader]; split_ifs <;> simp

theorem mapHeader_length_pos (n : Nat) : 1 ≤ (mapHeader n).length := by
  rw [mapHeader]; split_ifs <;> simp

theorem encode_length_pos (v : MValue) : 1 ≤ (encode v).length := by
  cases v with
  | nil => simp [encode]
  | bool b => cases b <;> simp [encode]
  | int n =>
    rw [encode, encodeInt]
    split_ifs <;> simp
  | str s =>
    rw [encode]
    have := strHeader_length_pos s.length
    simp only [List.length_append]
    omega
  | arr items =>
    rw [encode]
    have := arrHeader_length_pos items.length
    simp only [List.length_append]
    omega
  | obj fields =>
    rw [encode]
    have := mapHeader_length_pos fields.length
    simp only [List.length_append]
    omega

theorem decodeKey_encodeStr (s rest : List Nat) (h : s.length < 2 ^ 32) :
    decodeKey ((strHeader s.length ++ s) ++ rest) = some (s, rest) := by
  by_cases h32 : s.length < 32
  · rw [strHeader, if_pos h32]
    show decodeKey ((0xa0 + s.length) :: (s ++ rest)) = _
    simp only [decodeKey]
    rw [if_pos (by omega)]
    have he : 0xa0 + s.length - 0xa0 = s.length := by omega
    rw [he, readN_append _ _ _ rfl]
  · by_cases h256 : s.length < 256
    · rw [strHeader, if_neg h32, if_pos h256]
      show decodeKey (0xd9 :: s.length :: (s ++ rest)) = _
      simp only [decodeKey]
      rw [if_pos trivial]
      exact readN_append _ _ _ rfl
    · rw [strHeader, if_neg h32, if_neg h256]
      show decodeKey (0xdb :: (beBytes 4 s.length ++ (s ++ rest))) = _
      simp only [decodeKey]
      rw [if_pos trivial, readN_append _ _ _ (beBytes_length 4 s.length)]
      show readN (beToNat (beBytes 4 s.length)) (s ++ rest) = _
      rw [beToNat_beBytes, pow256_4, Nat.mod_eq_of_lt h]
      exact readN_append _ _ _ rfl

theorem decodeVal_str (fuel : Nat) (s rest : List Nat) (h : s.length < 2 ^ 32) :
    decodeVal (fuel + 1) ((strHeader s.length ++ s) ++ rest) = some (.str s, rest) := by
  by_cases h32 : s.length < 32
  · rw [strHeader, if_pos h32]
    show decodeVal (fuel + 1) ((0xa0 + s.length) :: (s ++ rest)) = _
    simp only [decodeVal]
    rw [if_neg (by omega), if_neg (by omega), if_neg (by omega), if_pos (by omega)]
    have he : 0xa0 + s.length - 0xa0 = s.length := by omega
    rw [he, readN_append _ _ _ rfl]
    rfl
  · by_cases h256 : s.length < 256
    · rw [strHeader, if_neg h32, if_pos h256]
      show decodeVal (fuel + 1) (0xd9 :: s.length :: (s ++ rest)) = _
      simp only [decodeVal]
      rw [if_pos trivial]
      rw [readN_append _ _ _ rfl]
      rfl
    · rw [strHeader, if_neg h32, if_neg h256]
      show decodeVal (fuel + 1) (0xdb :: (beBytes 4 s.length ++ (s ++ rest))) = _
      simp only [decodeVal]
      rw [if_pos trivial, readN_append _ _ _ (beBytes_length 4 s.length)]
      show (readN (beToNat (beBytes 4 s.length)) (s ++ rest)).map _ = _
      rw [beToNat_beBytes, pow256_4, Nat.mod_eq_of_lt h, readN_append _ _ _ rfl]
      rfl

theorem decodeVal_arr (fuel n : Nat) (bs : List Nat) (hn : n < 2 ^ 32) :
    decodeVal (fuel + 1) (arrHeader n ++ bs) =
      (decodeItemsF (decodeVal fuel) n bs).map (fun p => (MValue.arr p.1, p.2)) := by
  by_cases h16 : n < 16
  · rw [arrHeader, if_pos h16]
    show decodeVal (fuel + 1) ((0x90 + n) :: bs) = _
    simp only [decodeVal]
    rw [if_neg (by omega), if_neg (by omega), if_pos (by omega)]
    have he : 0x90 + n - 0x90 = n := by omega
    rw [he]
  · rw [arrHeader, if_neg h16]
    show decodeVal (fuel + 1) (0xdd :: (beBytes 4 n ++ bs)) = _
    simp only [decodeVal]
    rw [if_pos trivial, readN_append _ _ _ (beBytes_length 4 n)]
    show (decodeItemsF (decodeVal fuel) (beToNat (beBytes 4 n)) bs).map _ = _
    rw [beToNat_beBytes, pow256_4, Nat.mod_eq_of_lt hn]

theorem decodeVal_map (fuel n : Nat) (bs : List Nat) (hn : n < 2 ^ 32) :
    decodeVal (fuel + 1) (mapHeader n ++ bs) =
      (decodePairsF (decodeVal fuel) n bs).map (fun p => (MValue.obj p.1, p.2)) := by
  by_cases h16 : n < 16
  · rw [mapHeader, if_pos h16]
    show decodeVal (fuel + 1) ((0x80 + n) :: bs) = _
    simp only [decodeVal]
    rw [if_neg (by omega), if_pos (by omega)]
    have he : 0x80 + n - 0x80 = n := by omega
    rw [he]
  · rw [mapHeader, if_neg h16]
    show decodeVal (fuel + 1) (0xdf :: (beBytes 4 n ++ bs)) = _
    simp only [decodeVal]
    rw [if_pos trivial, readN_append _ _ _ (beBytes_length 4 n)]
    show (decodePairsF (decodeVal fuel) (beToNat (beBytes 4 n)) bs).map _ = _
    rw [beToNat_beBytes, pow256_4, Nat.mod_eq_of_lt hn]

/-- Decoding a negative fixint tag byte. -/
theorem decodeVal_negfixint (fuel b : Nat) (bs : List Nat)
    (hlo : 0xe0 ≤ b) (hhi : b ≤ 0xff) :
    decodeVal (fuel + 1) (b :: bs) = some (.int ((b : Int) - 256), bs) := by
  have k1 : ¬ b ≤ 0x7f := by omega
  have k2 : ¬ (0x80 ≤ b ∧ b ≤ 0x8f) := by omega
  have k3 : ¬ (0x90 ≤ b ∧ b ≤ 0x9f) := by omega
  have k4 : ¬ (0xa0 ≤ b ∧ b ≤ 0xbf) := by omega
  have k5 : ¬ b = 0xc0 := by omega
  have k6 : ¬ b = 0xc2 := by omega
  have k7 : ¬ b = 0xc3 := by omega
  have k8 : ¬ b = 0xd3 := by omega
  have k9 : ¬ b = 0xd9 := by omega
  have k10 : ¬ b = 0xdb := by omega
  have k11 : ¬ b = 0xdd := by omega
  have k12 : ¬ b = 0xdf := by omega
  simp only [decodeVal]
  rw [if_neg k1, if_neg k2, if_neg k3, if_neg k4, if_neg k5, if_neg k6, if_neg k7,
    if_neg k8, if_neg k9, if_neg k10, if_neg k11, if_neg k12, if_pos ⟨hlo, hhi⟩]

theorem decodeItemsF_encodeList (f : Nat)
    (ih : ∀ (v : MValue) (rest : List Nat), supportedB v = true →
      (encode v).length ≤ f → decodeVal f (encode v ++ rest) = some (v, rest)) :
    ∀ (its : List MValue) (rest : List Nat), supportedListB its = true →
      (encodeList its).length ≤ f →
      decodeItemsF (decodeVal f) its.length (encodeList its ++ rest) = some (its, rest) := by
  intro its
  induction its with
  | nil => intro rest _ _; simp [encodeList, decodeItemsF]
  | cons v vs ihl =>
    intro rest hsup hlen
    rw [supportedListB, Bool.and_eq_true] at hsup
    rw [encodeList, List.length_append] at hlen
    rw [List.length_cons, encodeList, List.append_assoc]
    simp only [decodeItemsF]
    rw [ih v (encodeList vs ++ rest) hsup.1 (by omega)]
    show (decodeItemsF (decodeVal f) vs.length (encodeList vs ++ rest)).map
      (fun p : List MValue × List Nat => (v :: p.1, p.2)) = _
    rw [ihl rest hsup.2 (by omega)]
    rfl

theorem decodePairsF_encodeFields (f : Nat)
    (ih : ∀ (v : MValue) (rest : List Nat), supportedB v = true →
      (encode v).length ≤ f → decodeVal f (encode v ++ rest) = some (v, rest)) :
    ∀ (fs : List (List Nat × MValue)) (rest : List Nat), supportedFieldsB fs = true →
      (encodeFields fs).length ≤ f →
      decodePairsF (decodeVal f) fs.length (encodeFields fs ++ rest) = some (fs, rest) := by
  intro fs
  induction fs with
  | nil => intro rest _ _; simp [encodeFields, decodePairsF]
  | cons kv fs1 ihl =>
    obtain ⟨k, v⟩ := kv
    intro rest hsup hlen
    rw [supportedFieldsB, Bool.and_eq_true, Bool.and_eq_true] at hsup
    obtain ⟨⟨hk, hv⟩, hfs⟩ := hsup
    rw [encodeFields] at hlen
    simp only [List.length_append] at hlen
    rw [List.length_cons, encodeFields,
      List.append_assoc (strHeader k.length ++ k) (encode v ++ encodeFields fs1) rest,
      List.append_assoc (encode v) (encodeFields fs1) rest]
    simp only [decodePairsF]
    rw [decodeKey_encodeStr k (encode v ++ (encodeFields fs1 ++ rest)) (by simpa using hk)]
    show (match decodeVal f (encode v ++ (encodeFields fs1 ++ rest)) with
      | some (v1, r1) =>
        (decodePairsF (decodeVal f) fs1.length r1).map
          (fun p : List (List Nat × MValue) × List Nat => ((k, v1) :: p.1, p.2))
      | none => none) = _
    rw [ih v (encodeFields fs1 ++ rest) hv (by omega)]
    show (decodePairsF (decodeVal f) fs1.length (encodeFields fs1 ++ rest)).map
      (fun p : List (List Nat × MValue) × List Nat => ((k, v) :: p.1, p.2)) = _
    rw [ihl rest hfs (by omega)]
    rfl

theorem decodeVal_encode (fuel : Nat) :
    ∀ (v : MValue) (rest : List Nat), supportedB v = true →
      (encode v).length ≤ fuel →
      decodeVal fuel (encode v ++ rest) = some (v, rest) := by
  induction fuel with
  | zero =>
    intro v rest _ hl
    exact absurd hl (by have := encode_length_pos v; omega)
  | succ f ih =>
    intro v rest hs hl
    cases v with
    | nil =>
      show decodeVal (f + 1) (0xc0 :: rest) = _
      simp [decodeVal]
    | bool b =>
      cases b
      · show decodeVal (f + 1) (0xc2 :: rest) = _
        simp [decodeVal]
      · show decodeVal (f + 1) (0xc3 :: rest) = _
        simp [decodeVal]
    | int n =>
      rw [supportedB, Bool.and_eq_true, decide_eq_true_eq, decide_eq_true_eq] at hs
      show decodeVal (f + 1) (encodeInt n ++ rest) = _
      by_cases h1 : 0 ≤ n ∧ n ≤ 127
      · rw [encodeInt, if_pos h1]
        show decodeVal (f + 1) (n.toNat :: rest) = _
        simp only [decodeVal]
        rw [if_pos (by omega), Int.toNat_of_nonneg h1.1]
      · by_cases h2 : -32 ≤ n ∧ n < 0
        · rw [encodeInt, if_neg h1, if_pos h2]
          show decodeVal (f + 1) ((n + 256).toNat :: rest) = _
          rw [decodeVal_negfixint f ((n + 256).toNat) rest (by omega) (by omega),
            Int.toNat_of_nonneg (by omega : (0 : Int) ≤ n + 256)]
          have heq : (n : Int) + 256 - 256 = n := by ring
          rw [heq]
        · rw [encodeInt, if_neg h1, if_neg h2]
          show decodeVal (f + 1) (0xd3 :: (beBytes 8 (n % (2 ^ 64 : Int)).toNat ++ rest)) = _
          simp only [decodeVal]
          rw [if_pos trivial, readN_append _ _ _ (beBytes_length 8 _)]
          show some (MValue.int (decodeI64 (beToNat (beBytes 8 (n % (2 ^ 64 : Int)).toNat))), rest) = _
          rw [beToNat_beBytes, pow256_8]
          have hlt : (n % (2 ^ 64 : Int)).toNat < 2 ^ 64 := by omega
          rw [Nat.mod_eq_of_lt hlt]
          have hval : decodeI64 (n % (2 ^ 64 : Int)).toNat = n := by
            rw [decodeI64]
            split_ifs with h3
            · omega
            · omega
          rw [hval]
    | str s =>
      rw [supportedB, decide_eq_true_eq] at hs
      show decodeVal (f + 1) ((strHeader s.length ++ s) ++ rest) = _
      exact decodeVal_str f s rest hs
    | arr items =>
      rw [supportedB, Bool.and_eq_true, decide_eq_true_eq] at hs
      rw [encode, List.length_append] at hl
      have hpos := arrHeader_length_pos items.length
      show decodeVal (f + 1) ((arrHeader items.length ++ encodeList items) ++ rest) = _
      rw [List.append_assoc, decodeVal_arr f items.length _ hs.1,
        decodeItemsF_encodeList f ih items rest hs.2 (by omega)]
      rfl
    | obj fields =>
      rw [supportedB, Bool.and_eq_true, decide_eq_true_eq] at hs
      rw [encode, List.length_append] at hl
      have hpos := mapHeader_length_pos fields.length
      show decodeVal (f + 1) ((mapHeader fields.length ++ encodeFields fields) ++ rest) = _
      rw [List.append_assoc, decodeVal_map f fields.length _ hs.1,
        decodePairsF_encodeFields f ih fields rest hs.2 (by omega)]
      rfl

theorem decode_encode_append (v : MValue) (junk : List Nat) (hs : supportedB v = true) :
    decode (encode v ++ junk) = some v := by
  rw [decode, decodeVal_encode ((encode v ++ junk).length + 1) v junk hs
    (by simp only [List.length_append]; omega)]
  rfl

/-! ## Decoder extension and monotonicity

A successful parse is stable under appending bytes to the stream (the
decoder never looks past what it consumes) and under raising the fuel.
Together with the round trip these give the prefix-freedom of the wire
format: no proper truncation of an encoding decodes. -/

theorem decodeKey_extend (bs q : List Nat) (out : List Nat × List Nat)
    (h : decodeKey bs = some out) : decodeKey (bs ++ q) = some (out.1, out.2 ++ q) := by
  cases bs with
  | nil => simp [decodeKey] at h
  | cons b bs =>
    simp only [List.cons_append]
    simp only [decodeKey] at h ⊢
    split_ifs at h ⊢ with h1 h2 h3
    · exact readN_extend _ _ _ _ h
    · cases bs with
      | nil => simp at h
      | cons len bs1 =>
        simp only [List.cons_append]
        exact readN_extend _ _ _ _ h
    · cases hr : readN 4 bs with
      | none => simp only [hr] at h; simp at h
      | some p =>
        obtain ⟨lb, r⟩ := p
        simp only [hr] at h
        simp only [readN_extend 4 bs q (lb, r) hr]
        exact readN_extend _ _ _ _ h

theorem decodeItemsF_extend (dv : List Nat → Option (MValue × List Nat))
    (hdv : ∀ bs q out, dv bs = some out → dv (bs ++ q) = some (out.1, out.2 ++ q)) :
    ∀ (n : Nat) (bs q : List Nat) (out : List MValue × List Nat),
      decodeItemsF dv n bs = some out →
      decodeItemsF dv n (bs ++ q) = some (out.1, out.2 ++ q) := by
  intro n
  induction n with
  | zero =>
    intro bs q out h
    rw [decodeItemsF] at h
    injection h with h
    subst h
    rfl
  | succ n ih =>
    intro bs q out h
    rw [decodeItemsF] at h ⊢
    cases hv : dv bs with
    | none => simp only [hv] at h; simp at h
    | some pv =>
      obtain ⟨v, r⟩ := pv
      simp only [hv] at h
      simp only [hdv bs q (v, r) hv]
      cases hrest : decodeItemsF dv n r with
      | none => simp only [hrest] at h; simp at h
      | some p =>
        simp only [hrest] at h
        simp only [ih r q p hrest]
        injection h with h
        subst h
        rfl

theorem decodePairsF_extend (dv : List Nat → Option (MValue × List Nat))
    (hdv : ∀ bs q out, dv bs = some out → dv (bs ++ q) = some (out.1, out.2 ++ q)) :
    ∀ (n : Nat) (bs q : List Nat) (out : List (List Nat × MValue) × List Nat),
      decodePairsF dv n bs = some out →
      decodePairsF dv n (bs ++ q) = some (out.1, out.2 ++ q) := by
  intro n
  induction n with
  | zero =>
    intro bs q out h
    rw [decodePairsF] at h
    injection h with h
    subst h
    rfl
  | succ n ih =>
    intro bs q out h
    rw [decodePairsF] at h ⊢
    cases hk : decodeKey bs with
    | none => simp only [hk] at h; simp at h
    | some pk =>
      obtain ⟨k, r⟩ := pk
      simp only [hk] at h
      simp only [decodeKey_extend bs q (k, r) hk]
      cases hv : dv r with
      | none => simp only [hv] at h; simp at h
      | some pv =>
        obtain ⟨v, r1⟩ := pv
        simp only [hv] at h
        simp only [hdv r q (v, r1) hv]
        cases hrest : decodePairsF dv n r1 with
        | none => simp only [hrest] at h; simp at h
        | some p =>
          simp only [hrest] at h
          simp only [ih r1 q p hrest]
          injection h with h
          subst h
          rfl

set_option maxRecDepth 4000 in
theorem decodeVal_extend :
    ∀ (fuel : Nat) (bs q : List Nat) (out : MValue × List Nat),
      decodeVal fuel bs = some out →
      decodeVal fuel (bs ++ q) = some (out.1, out.2 ++ q) := by
  intro fuel
  induction fuel with
  | zero => intro bs q out h; simp [decodeVal] at h
  | succ f ih =>
    intro bs q out h
    cases bs with
    | nil => simp [decodeVal] at h
    | cons b bs =>
      simp only [List.cons_append]
      simp only [decodeVal] at h ⊢
      by_cases hb1 : b ≤ 0x7f
      · rw [if_pos hb1] at h ⊢
        injection h with h; subst h; rfl
      · rw [if_neg hb1] at h ⊢
        by_cases hb2 : 0x80 ≤ b ∧ b ≤ 0x8f
        · rw [if_pos hb2] at h ⊢
          cases hp : decodePairsF (decodeVal f) (b - 0x80) bs with
          | none => simp only [hp] at h; simp at h
          | some p =>
            simp only [hp] at h
            simp only [decodePairsF_extend (decodeVal f) ih (b - 0x80) bs q p hp]
            injection h with h; subst h; rfl
        · rw [if_neg hb2] at h ⊢
          by_cases hb3 : 0x90 ≤ b ∧ b ≤ 0x9f
          · rw [if_pos hb3] at h ⊢
            cases hp : decodeItemsF (decodeVal f) (b - 0x90) bs with
            | none => simp only [hp] at h; simp at h
            | some p =>
              simp only [hp] at h
              simp only [decodeItemsF_extend (decodeVal f) ih (b - 0x90) bs q p hp]
              injection h with h; subst h; rfl
          · rw [if_neg hb3] at h ⊢
            by_cases hb4 : 0xa0 ≤ b ∧ b ≤ 0xbf
            · rw [if_pos hb4] at h ⊢
              cases hp : readN (b - 0xa0) bs with
              | none => simp only [hp] at h; simp at h
              | some p =>
                simp only [hp] at h
                simp only [readN_extend (b - 0xa0) bs q p hp]
                injection h with h; subst h; rfl
            · rw [if_neg hb4] at h ⊢
              by_cases hb5 : b = 0xc0
              · rw [if_pos hb5] at h ⊢
                injection h with h; subst h; rfl
              · rw [if_neg hb5] at h ⊢
                by_cases hb6 : b = 0xc2
                · rw [if_pos hb6] at h ⊢
                  injection h with h; subst h; rfl
                · rw [if_neg hb6] at h ⊢
                  by_cases hb7 : b = 0xc3
                  · rw [if_pos hb7] at h ⊢
                    injection h with h; subst h; rfl
                  · rw [if_neg hb7] at h ⊢
                    by_cases hb8 : b = 0xd3
                    · rw [if_pos hb8] at h ⊢
                      cases hp : readN 8 bs with
                      | none => simp only [hp] at h; simp at h
                      | some p =>
                        obtain ⟨u, r⟩ := p
                        simp only [hp] at h
                        simp only [readN_extend 8 bs q (u, r) hp]
                        injection h with h; subst h; rfl
                    · rw [if_neg hb8] at h ⊢
                      by_cases hb9 : b = 0xd9
                      · rw [if_pos hb9] at h ⊢
                        cases bs with
                        | nil => simp at h
                        | cons len bs1 =>
                          simp only [List.cons_append]
                          cases hp : readN len bs1 with
                          | none => simp only [hp] at h; simp at h
                          | some p =>
                            simp only [hp] at h
                            simp only [readN_extend len bs1 q p hp]
                            injection h with h; subst h; rfl
                      · rw [if_neg hb9] at h ⊢
                        by_cases hb10 : b = 0xdb
                        · rw [if_pos hb10] at h ⊢
                          cases hp : readN 4 bs with
                          | none => simp only [hp] at h; simp at h
                          | some p =>
                            obtain ⟨lb, r⟩ := p
                            simp only [hp] at h
                            simp only [readN_extend 4 bs q (lb, r) hp]
                            cases hs1 : readN (beToNat lb) r with
                            | none => simp only [hs1] at h; simp at h
                            | some p1 =>
                              simp only [hs1] at h
                              simp only [readN_extend (beToNat lb) r q p1 hs1]
                              injection h with h; subst h; rfl
                        · rw [if_neg hb10] at h ⊢
                          by_cases hb11 : b = 0xdd
                          · rw [if_pos hb11] at h ⊢
                            cases hp : readN 4 bs with
                            | none => simp only [hp] at h; simp at h
                            | some p =>
                              obtain ⟨lb, r⟩ := p
                              simp only [hp] at h
                              simp only [readN_extend 4 bs q (lb, r) hp]
                              cases hs1 : decodeItemsF (decodeVal f) (beToNat lb) r with
                              | none => simp only [hs1] at h; simp at h
                              | some p1 =>
                                simp only [hs1] at h
                                simp only [decodeItemsF_extend (decodeVal f) ih (beToNat lb) r q p1 hs1]
                                injection h with h; subst h; rfl
                          · rw [if_neg hb11] at h ⊢
                            by_cases hb12 : b = 0xdf
                            · rw [if_pos hb12] at h ⊢
                              cases hp : readN 4 bs with
                              | none => simp only [hp] at h; simp at h
                              | some p =>
                                obtain ⟨lb, r⟩ := p
                                simp only [hp] at h
                                simp only [readN_extend 4 bs q (lb, r) hp]
                                cases hs1 : decodePairsF (decodeVal f) (beToNat lb) r with
                                | none => simp only [hs1] at h; simp at h
                                | some p1 =>
                                  simp only [hs1] at h
                                  simp only [decodePairsF_extend (decodeVal f) ih (beToNat lb) r q p1 hs1]
                                  injection h with h; subst h; rfl
                            · rw [if_neg hb12] at h ⊢
                              by_cases hb13 : 0xe0 ≤ b ∧ b ≤ 0xff
                              · rw [if_pos hb13] at h ⊢
                                injection h with h; subst h; rfl
                              · rw [if_neg hb13] at h ⊢
                                exact absurd h (by simp)


theorem decodeItemsF_mono (dv dv' : List Nat → Option (MValue × List Nat))
    (hdv : ∀ bs out, dv bs = some out → dv' bs = some out) :
    ∀ (n : Nat) (bs : List Nat) (out : List MValue × List Nat),
      decodeItemsF dv n bs = some out → decodeItemsF dv' n bs = some out := by
  intro n
  induction n with
  | zero => intro bs out h; exact h
  | succ n ih =>
    intro bs out h
    rw [decodeItemsF] at h ⊢
    cases hv : dv bs with
    | none => simp only [hv] at h; simp at h
    | some pv =>
      obtain ⟨v, r⟩ := pv
      simp only [hv] at h
      simp only [hdv bs (v, r) hv]
      cases hrest : decodeItemsF dv n r with
      | none => simp only [hrest] at h; simp at h
      | some p =>
        simp only [hrest] at h
        simp only [ih r p hrest]
        exact h

theorem decodePairsF_mono (dv dv' : List Nat → Option (MValue × List Nat))
    (hdv : ∀ bs out, dv bs = some out → dv' bs = some out) :
    ∀ (n : Nat) (bs : List Nat) (out : List (List Nat × MValue) × List Nat),
      decodePairsF dv n bs = some out → decodePairsF dv' n bs = some out := by
  intro n
  induction n with
  | zero => intro bs out h; exact h
  | succ n ih =>
    intro bs out h
    rw [decodePairsF] at h ⊢
    cases hk : decodeKey bs with
    | none => simp only [hk] at h; simp at h
    | some pk =>
      obtain ⟨k, r⟩ := pk
      simp only [hk] at h
      cases hv : dv r with
      | none => simp only [hv] at h; simp at h
      | some pv =>
        obtain ⟨v, r1⟩ := pv
        simp only [hv] at h
        simp only [hdv r (v, r1) hv]
        cases hrest : decodePairsF dv n r1 with
        | none => simp only [hrest] at h; simp at h
        | some p =>
          simp only [hrest] at h
          simp only [ih r1 p hrest]
          exact h

set_option maxRecDepth 4000 in
theorem decodeVal_mono :
    ∀ (fuel fuel' : Nat), fuel ≤ fuel' → ∀ (bs : List Nat) (out : MValue × List Nat),
      decodeVal fuel bs = some out → decodeVal fuel' bs = some out := by
  intro fuel
  induction fuel with
  | zero => intro fuel' _ bs out h; simp [decodeVal] at h
  | succ f ih =>
    intro fuel' hle bs out h
    obtain ⟨f1, rfl⟩ : ∃ f1, fuel' = f1 + 1 := ⟨fuel' - 1, by omega⟩
    have hf : f ≤ f1 := by omega
    cases bs with
    | nil => simp [decodeVal] at h
    | cons b bs =>
      simp only [decodeVal] at h ⊢
      by_cases hb1 : b ≤ 0x7f
      · rw [if_pos hb1] at h ⊢
        exact h
      · rw [if_neg hb1] at h ⊢
        by_cases hb2 : 0x80 ≤ b ∧ b ≤ 0x8f
        · rw [if_pos hb2] at h ⊢
          cases hp : decodePairsF (decodeVal f) (b - 0x80) bs with
          | none => simp only [hp] at h; simp at h
          | some p =>
            simp only [hp] at h
            simp only [decodePairsF_mono (decodeVal f) (decodeVal f1) (fun bs1 out1 hh => ih f1 hf bs1 out1 hh) (b - 0x80) bs p hp]
            exact h
        · rw [if_neg hb2] at h ⊢
          by_cases hb3 : 0x90 ≤ b ∧ b ≤ 0x9f
          · rw [if_pos hb3] at h ⊢
            cases hp : decodeItemsF (decodeVal f) (b - 0x90) bs with
            | none => simp only [hp] at h; simp at h
            | some p =>
              simp only [hp] at h
              simp only [decodeItemsF_mono (decodeVal f) (decodeVal f1) (fun bs1 out1 hh => ih f1 hf bs1 out1 hh) (b - 0x90) bs p hp]
              exact h
          · rw [if_neg hb3] at h ⊢
            by_cases hb4 : 0xa0 ≤ b ∧ b ≤ 0xbf
            · rw [if_pos hb4] at h ⊢
              exact h
            · rw [if_neg hb4] at h ⊢
              by_cases hb5 : b = 0xc0
              · rw [if_pos hb5] at h ⊢
                exact h
              · rw [if_neg hb5] at h ⊢
                by_cases hb6 : b = 0xc2
                · rw [if_pos hb6] at h ⊢
                  exact h
                · rw [if_neg hb6] at h ⊢
                  by_cases hb7 : b = 0xc3
                  · rw [if_pos hb7] at h ⊢
                    exact h
                  · rw [if_neg hb7] at h ⊢
                    by_cases hb8 : b = 0xd3
                    · rw [if_pos hb8] at h ⊢
                      exact h
                    · rw [if_neg hb8] at h ⊢
                      by_cases hb9 : b = 0xd9
                      · rw [if_pos hb9] at h ⊢
                        exact h
                      · rw [if_neg hb9] at h ⊢
                        by_cases hb10 : b = 0xdb
                        · rw [if_pos hb10] at h ⊢
                          exact h
                        · rw [if_neg hb10] at h ⊢
                          by_cases hb11 : b = 0xdd
                          · rw [if_pos hb11] at h ⊢
                            cases hp : readN 4 bs with
                            | none => simp only [hp] at h; simp at h
                            | some p =>
                              obtain ⟨lb, r⟩ := p
                              simp only [hp] at h ⊢
                              cases hs1 : decodeItemsF (decodeVal f) (beToNat lb) r with
                              | none => simp only [hs1] at h; simp at h
                              | some p1 =>
                                simp only [hs1] at h
                                simp only [decodeItemsF_mono (decodeVal f) (decodeVal f1) (fun bs1 out1 hh => ih f1 hf bs1 out1 hh) (beToNat lb) r p1 hs1]
                                exact h
                          · rw [if_neg hb11] at h ⊢
                            by_cases hb12 : b = 0xdf
                            · rw [if_pos hb12] at h ⊢
                              cases hp : readN 4 bs with
                              | none => simp only [hp] at h; simp at h
                              | some p =>
                                obtain ⟨lb, r⟩ := p
                                simp only [hp] at h ⊢
                                cases hs1 : decodePairsF (decodeVal f) (beToNat lb) r with
                                | none => simp only [hs1] at h; simp at h
                                | some p1 =>
                                  simp only [hs1] at h
                                  simp only [decodePairsF_mono (decodeVal f) (decodeVal f1) (fun bs1 out1 hh => ih f1 hf bs1 out1 hh) (beToNat lb) r p1 hs1]
                                  exact h
                            · rw [if_neg hb12] at h ⊢
                              by_cases hb13 : 0xe0 ≤ b ∧ b ≤ 0xff
                              · rw [if_pos hb13] at h ⊢
                                exact h
                              · rw [if_neg hb13] at h ⊢
                                exact absurd h (by simp)

/-! ## Corrupt-tag rejection -/

theorem decodeVal_invalid (fuel b : Nat) (bs : List Nat) (hb : validTag b = false) :
    decodeVal fuel (b :: bs) = none := by
  cases fuel with
  | zero => rfl
  | succ f =>
    simp only [validTag, Bool.or_eq_false_iff, decide_eq_false_iff_not] at hb
    obtain ⟨⟨⟨⟨⟨⟨⟨⟨⟨⟨⟨⟨h1, h2⟩, h3⟩, h4⟩, h5⟩, h6⟩, h7⟩, h8⟩, h9⟩, h10⟩, h11⟩, h12⟩, h13⟩ := hb
    simp only [decodeVal]
    rw [if_neg h1, if_neg h2, if_neg h3, if_neg h4, if_neg h5, if_neg h6, if_neg h7,
      if_neg h8, if_neg h9, if_neg h10, if_neg h11, if_neg h12, if_neg h13]

/-! ## Heap lemmas -/

theorem Heap.get_alloc (h : Heap) (v : RVec) :
    ((h.alloc v).1).get (h.alloc v).2 = some v := by
  show (⟨h.blocks ++ [some v]⟩ : Heap).get h.blocks.length = some v
  rw [Heap.get]
  show (h.blocks ++ [some v]).getD h.blocks.length none = some v
  rw [List.getD_eq_getElem?_getD]
  simp

/-! ## Synthesizer lemmas -/

theorem processArgs_ok_eq :
    ∀ (l : List FnArg) (ps : List (String × Ty)), processArgs l = .ok ps →
      ps = declaredParams l ∧ ∀ a ∈ l, argAccepted a = true := by
  intro l
  induction l with
  | nil =>
    intro ps h
    rw [processArgs] at h
    injection h with h
    subst h
    exact ⟨rfl, by simp⟩
  | cons a rest ih =>
    intro ps h
    rw [processArgs] at h
    cases a with
    | receiver => simp [processArg] at h
    | typed p ty =>
      cases p with
      | otherPat => simp [processArg] at h
      | ident name =>
        simp only [processArg] at h
        cases hrest : processArgs rest with
        | error e => rw [hrest] at h; simp at h
        | ok ps1 =>
          rw [hrest] at h
          injection h with h
          subst h
          obtain ⟨h1, h2⟩ := ih ps1 hrest
          refine ⟨by rw [declaredParams, h1], ?_⟩
          intro a ha
          rcases List.mem_cons.mp ha with rfl | ha1
          · rfl
          · exact h2 a ha1

theorem processArgs_error_iff :
    ∀ (l : List FnArg), (∃ e, processArgs l = .error e) ↔ ∃ a ∈ l, argAccepted a = false := by
  intro l
  induction l with
  | nil =>
    constructor
    · rintro ⟨e, h⟩; rw [processArgs] at h; cases h
    · rintro ⟨a, ha, _⟩; cases ha
  | cons a rest ih =>
    constructor
    · rintro ⟨e, h⟩
      rw [processArgs] at h
      cases a with
      | receiver => exact ⟨.receiver, List.mem_cons_self _ _, rfl⟩
      | typed p ty =>
        cases p with
        | otherPat => exact ⟨.typed .otherPat ty, List.mem_cons_self _ _, rfl⟩
        | ident name =>
          simp only [processArg] at h
          cases hrest : processArgs rest with
          | error e1 =>
            obtain ⟨b, hb, hacc⟩ := ih.mp ⟨e1, hrest⟩
            exact ⟨b, List.mem_cons_of_mem _ hb, hacc⟩
          | ok ps1 => rw [hrest] at h; cases h
    · rintro ⟨b, hb, hacc⟩
      rcases List.mem_cons.mp hb with rfl | hb1
      · cases b with
        | receiver => exact ⟨errReceiver, rfl⟩
        | typed p ty =>
          cases p with
          | ident name => simp [argAccepted] at hacc
          | otherPat =>
            rw [processArgs]
            exact ⟨errPattern, rfl⟩
      · obtain ⟨e1, he1⟩ := ih.mpr ⟨b, hb1, hacc⟩
        rw [processArgs]
        cases a with
        | receiver => exact ⟨errReceiver, rfl⟩
        | typed p ty =>
          cases p with
          | otherPat => exact ⟨errPattern, rfl⟩
          | ident name =>
            simp only [processArg]
            rw [he1]
            exact ⟨e1, rfl⟩

theorem extractResumableInner_ok_iff (t inner : Ty) :
    extractResumableInner t = .ok inner ↔ IsResumableForm t inner := by
  constructor
  · intro h
    cases t with
    | otherTy => simp [extractResumableInner] at h
    | path segments =>
      rw [extractResumableInner] at h
      split at h
      · cases h
      · rename_i ident args hlast
        by_cases hid : ident = "Resumable"
        · rw [if_pos hid] at h
          split at h
          · rename_i gargs
            split at h
            · rename_i t1
              injection h with h
              subst h
              subst hid
              exact ⟨segments, rfl, hlast⟩
            · cases h
            · cases h
          · cases h
        · rw [if_neg hid] at h; cases h
  · rintro ⟨segs, rfl, hlast⟩
    rw [extractResumableInner, hlast]
    rfl

/-- Inversion of a successful plain-function synthesis: the parameters were
accepted, a return type was declared, and the output is exactly the record
built by `middle_fn_inner`. -/
theorem middle_fn_inner_ok_inv (f : ItemFn) (g : Generated)
    (h : middle_fn_inner f = .ok g) :
    ∃ params out_sig, processArgs f.sig.inputs = .ok params ∧
      f.sig.output = ReturnType.type out_sig ∧
      g = { inStruct := ⟨"UserFnIn__" ++ f.sig.ident, params⟩
            outStruct := ⟨"UserFnOut__" ++ f.sig.ident, out_sig⟩
            entryName := "user_fn__" ++ f.sig.ident
            introspectName := "user_fn_info__" ++ f.sig.ident
            entryBody :=
              fnEntryBody f.sig.ident ("UserFnOut__" ++ f.sig.ident)
                (params.map Prod.fst) } := by
  rw [middle_fn_inner] at h
  split at h
  · cases h
  · rename_i params hproc
    split at h
    · cases h
    · rename_i out_sig hout
      injection h with h
      exact ⟨params, out_sig, hproc, hout, h.symm⟩

/-- Inversion of a successful workflow synthesis. -/
theorem middle_workflow_inner_ok_inv (f : ItemFn) (g : Generated)
    (h : middle_workflow_inner f = .ok g) :
    ∃ params t inner, processArgs f.sig.inputs = .ok params ∧
      f.sig.output = ReturnType.type t ∧
      extractResumableInner t = .ok inner ∧
      g = { inStruct := ⟨"UserWorkflowIn__" ++ f.sig.ident, params⟩
            outStruct := ⟨"UserWorkflowOut__" ++ f.sig.ident, inner⟩
            entryName := "user_workflow__" ++ f.sig.ident
            introspectName := "user_workflow_info__" ++ f.sig.ident
            entryBody := workflowEntryBody f.sig.ident (params.map Prod.fst) } := by
  rw [middle_workflow_inner] at h
  split at h
  · cases h
  · rename_i params hproc
    split at h
    · cases h
    · rename_i t hout
      split at h
      · cases h
      · rename_i inner hex
        injection h with h
        exact ⟨params, t, inner, hproc, hout, hex, h.symm⟩

/-- A parameter fails the per-parameter check exactly when it is a receiver
or a destructuring pattern. -/
theorem argAccepted_false_iff (a : FnArg) :
    argAccepted a = false ↔ (a.isReceiver = true ∨ a.isDestructuring = true) := by
  cases a with
  | receiver => simp [argAccepted, FnArg.isReceiver, FnArg.isDestructuring]
  | typed p ty =>
    cases p <;> simp [argAccepted, FnArg.isReceiver, FnArg.isDestructuring]

/-- When every parameter is accepted, the declared parameter list loses
nothing. -/
theorem declaredParams_length_of_accepted :
    ∀ (l : List FnArg), (∀ a ∈ l, argAccepted a = true) →
      (declaredParams l).length = l.length := by
  intro l
  induction l with
  | nil => intro _; rfl
  | cons a rest ih =>
    intro hall
    have ha := hall a (List.mem_cons_self _ _)
    cases a with
    | receiver => simp [argAccepted] at ha
    | typed p ty =>
      cases p with
      | otherPat => simp [argAccepted] at ha
      | ident name =>
        simp only [declaredParams, List.length_cons]
        rw [ih (fun b hb => hall b (List.mem_cons_of_mem _ hb))]

/-- Synthesis succeeds exactly when the parameter check and the return-type
check both pass. -/
theorem middle_fn_inner_isOk (f : ItemFn) :
    (middle_fn_inner f).isOk = ((processArgs f.sig.inputs).isOk && hasExplicitReturn f) := by
  rw [middle_fn_inner, hasExplicitReturn]
  cases hproc : processArgs f.sig.inputs with
  | error e => rfl
  | ok params => cases hout : f.sig.output <;> rfl

/-! ## Claim theorems -/

/-- Claim C1, counterexample: the pair returned by `value_to_host` does not
carry the exact number of encoded bytes.  Encoding the integer 5 produces
one byte, but `rmp_serde::to_vec` returns it in a `Vec` of capacity 128
(its initial allocation), and the source returns `(ptr, cap)` — here 128,
not 1. -/
theorem c1_counterexample :
    (value_to_host ⟨[]⟩ (encode (MValue.int 5)) rmp_initial_capacity).2.2 ≠
      (encode (MValue.int 5)).length := by
  decide

/-- Claim C1, amended: `value_to_host` encodes the value, keeps the buffer
alive in the heap (it is not reclaimed), and returns `(address, capacity)`
where the capacity is an upper bound on — in general strictly larger than —
the number of encoded bytes. -/
theorem c1_value_to_host_returns_capacity (h : Heap) (v : MValue) (cap : Nat)
    (hcap : (encode v).length ≤ cap) :
    ((value_to_host h (encode v) cap).1).get (value_to_host h (encode v) cap).2.1 =
        some ⟨encode v, cap⟩ ∧
    (value_to_host h (encode v) cap).2.2 = cap ∧
    (encode v).length ≤ (value_to_host h (encode v) cap).2.2 :=
  ⟨Heap.get_alloc h ⟨encode v, cap⟩, rfl, hcap⟩

/-- Witness for C1 at the integer 5 and the rmp initial capacity. -/
theorem c1_value_to_host_returns_capacity_witness :
    (encode (MValue.int 5)).length ≤ rmp_initial_capacity ∧
    (((value_to_host ⟨[]⟩ (encode (MValue.int 5)) rmp_initial_capacity).1).get
        (value_to_host ⟨[]⟩ (encode (MValue.int 5)) rmp_initial_capacity).2.1 =
        some ⟨encode (MValue.int 5), rmp_initial_capacity⟩ ∧
      (value_to_host ⟨[]⟩ (encode (MValue.int 5)) rmp_initial_capacity).2.2 =
        rmp_initial_capacity ∧
      (encode (MValue.int 5)).length ≤
        (value_to_host ⟨[]⟩ (encode (MValue.int 5)) rmp_initial_capacity).2.2) :=
  ⟨by decide,
    c1_value_to_host_returns_capacity ⟨[]⟩ (MValue.int 5) rmp_initial_capacity (by decide)⟩

/-- Claim C2: the codec round-trips — decoding the encoding of any supported
value (even when followed by uninitialized trailing bytes, as happens when
the capacity-sized buffer crosses the boundary) yields the value back. -/
theorem c2_decode_encode_roundtrip (v : MValue) (junk : List Nat)
    (hs : supportedB v = true) :
    value_from_host (encode v ++ junk) = some v ∧ decode (encode v) = some v := by
  refine ⟨decode_encode_append v junk hs, ?_⟩
  have h0 := decode_encode_append v [] hs
  rwa [List.append_nil] at h0

/-- Witness for C2 at a nested map/sequence/string/nil/bool/negative-int
value, with one trailing byte. -/
theorem c2_decode_encode_roundtrip_witness :
    supportedB exValue = true ∧
    (value_from_host (encode exValue ++ [0]) = some exValue ∧
      decode (encode exValue) = some exValue) :=
  ⟨rfl, c2_decode_encode_roundtrip exValue [0] rfl⟩

/-- Claim C4: `vec_parts_to_host` packs `(offset, size)` into one live
8-byte record — 4 little-endian bytes of the address then 4 little-endian
bytes of the length — at the returned address, and `vec_parts_from_host`
recovers exactly the original pair from it. -/
theorem c4_vec_parts_roundtrip (h : Heap) (offset size : Nat)
    (ho : offset < 2 ^ 32) (hs : size < 2 ^ 32) :
    ((vec_parts_to_host h offset size).1).get (vec_parts_to_host h offset size).2 =
        some ⟨leBytes 4 offset ++ leBytes 4 size, 8⟩ ∧
    (leBytes 4 offset ++ leBytes 4 size).length = 8 ∧
    (vec_parts_from_host (vec_parts_to_host h offset size).1
        (vec_parts_to_host h offset size).2).2 = some (offset, size) := by
  have hget : ((vec_parts_to_host h offset size).1).get (vec_parts_to_host h offset size).2 =
      some ⟨leBytes 4 offset ++ leBytes 4 size, 8⟩ := Heap.get_alloc h _
  refine ⟨hget, ?_, ?_⟩
  · simp [List.length_append, leBytes_length]
  · have ht : (leBytes 4 offset ++ leBytes 4 size).take 4 = leBytes 4 offset :=
      List.take_left' (leBytes_length 4 offset)
    have hd : (leBytes 4 offset ++ leBytes 4 size).drop 4 = leBytes 4 size :=
      List.drop_left' (leBytes_length 4 offset)
    simp only [vec_parts_from_host, hget, ht, hd, leToNat_leBytes, pow256_4,
      Nat.mod_eq_of_lt ho, Nat.mod_eq_of_lt hs]

/-- Witness for C4 at the pair (7, 300) in an empty heap. -/
theorem c4_vec_parts_roundtrip_witness :
    ((7 : Nat) < 2 ^ 32 ∧ (300 : Nat) < 2 ^ 32) ∧
    (((vec_parts_to_host ⟨[]⟩ 7 300).1).get (vec_parts_to_host ⟨[]⟩ 7 300).2 =
        some ⟨leBytes 4 7 ++ leBytes 4 300, 8⟩ ∧
      (leBytes 4 7 ++ leBytes 4 300).length = 8 ∧
      (vec_parts_from_host (vec_parts_to_host ⟨[]⟩ 7 300).1
          (vec_parts_to_host ⟨[]⟩ 7 300).2).2 = some (7, 300)) :=
  ⟨⟨by decide, by decide⟩, c4_vec_parts_roundtrip ⟨[]⟩ 7 300 (by decide) (by decide)⟩

/-- Claim C5: for a duration whose millisecond count fits in a u64, `pause`
calls the host oracle with that count and yields `Pause` exactly when the
reply is zero, `Ready(())` exactly when it is nonzero. -/
theorem c5_pause_spec (host_pause : Nat → Nat) (d : MDuration)
    (hfit : d.as_millis < 2 ^ 64) :
    (pause host_pause d = some Resumable.Pause ↔ host_pause d.as_millis = 0) ∧
    (pause host_pause d = some (Resumable.Ready ()) ↔ host_pause d.as_millis ≠ 0) := by
  cases hh : host_pause d.as_millis <;> simp [pause, if_pos hfit, hh] <;> omega

/-- Witness for C5 at a 100 ms duration against the always-0 and always-1
host oracles. -/
theorem c5_pause_spec_witness :
    exDuration.as_millis < 2 ^ 64 ∧
    ((pause (fun _ => 0) exDuration = some Resumable.Pause ↔
        (fun _ : Nat => 0) exDuration.as_millis = 0) ∧
      (pause (fun _ => 0) exDuration = some (Resumable.Ready ()) ↔
        (fun _ : Nat => 0) exDuration.as_millis ≠ 0)) :=
  ⟨by decide, c5_pause_spec (fun _ => 0) exDuration (by decide)⟩

/-- Claim C6: the Try/branch combinator on `Resumable` short-circuits —
branching `Pause` breaks with the `Pause` residual (so the enclosing body
returns `Pause` without evaluating the continuation), and branching
`Ready(x)` continues into the continuation with `x`. -/
theorem c6_resumable_short_circuit (T U : Type) (x : T) (k : T → Resumable U) :
    Resumable.branch (Resumable.Pause : Resumable T) = CtrlFlow.Break Resumable.Pause ∧
    Resumable.branch (Resumable.Ready x) = CtrlFlow.Continue x ∧
    Resumable.andThen (Resumable.Pause : Resumable T) k = Resumable.Pause ∧
    Resumable.andThen (Resumable.Ready x) k = k x :=
  ⟨rfl, rfl, rfl, rfl⟩

/-- Witness for C6 at a concrete continuation. -/
theorem c6_resumable_short_circuit_witness :
    Resumable.branch (Resumable.Pause : Resumable Nat) = CtrlFlow.Break Resumable.Pause ∧
    Resumable.branch (Resumable.Ready 3) = CtrlFlow.Continue 3 ∧
    Resumable.andThen (Resumable.Pause : Resumable Nat)
      (fun n => Resumable.Ready (n + 1)) = Resumable.Pause ∧
    Resumable.andThen (Resumable.Ready 3)
      (fun n => Resumable.Ready (n + 1)) = Resumable.Ready 4 :=
  c6_resumable_short_circuit Nat Nat 3 (fun n => Resumable.Ready (n + 1))

/-- Claim C3, counterexample: the workflow synthesizer's generated entry
point does not wrap the user function's result in the Output Envelope — on
the accepted descriptor `w(a: u32) -> Resumable<u32>` no statement of the
generated body constructs the envelope tuple struct (the source serializes
`output` directly, matching the test in macros/src/workflow.rs). -/
theorem c3_counterexample :
    (middle_workflow_inner exWorkflow).isOk = true ∧
    (match middle_workflow_inner exWorkflow with
      | .ok g => g.entryBody.all (fun s => !(s.wraps g.outStruct.name))
      | .error _ => false) = true :=
  ⟨rfl, rfl⟩

/-- Claim C3, amended: the plain-function synthesizer's entry point wraps
the user function's result in the generated Output Envelope before
serializing it, while the workflow synthesizer's entry point serializes the
`Resumable` result directly, with no statement wrapping it in the Output
Envelope (which the workflow generates only for schema introspection). -/
theorem c3_fn_wraps_workflow_encodes_directly (f : ItemFn) (g : Generated) :
    (middle_fn_inner f = .ok g →
      g.entryBody.get? 3 =
        some (.letVar "output" (.structTuple g.outStruct.name (.var "output"))) ∧
      g.entryBody.get? 4 =
        some (.letVar "output_json" (.call "serde_json::value::to_value" [.var "output"]))) ∧
    (middle_workflow_inner f = .ok g →
      g.entryBody.get? 3 =
        some (.letVar "output_json" (.call "serde_json::value::to_value" [.var "output"])) ∧
      g.entryBody.all (fun s => !(s.wraps g.outStruct.name)) = true) := by
  constructor
  · intro hok
    obtain ⟨params, out_sig, _, _, rfl⟩ := middle_fn_inner_ok_inv f g hok
    exact ⟨rfl, rfl⟩
  · intro hok
    obtain ⟨params, t, inner, _, _, _, rfl⟩ := middle_workflow_inner_ok_inv f g hok
    exact ⟨rfl, rfl⟩

/-- Witness for the amended C3 at the concrete plain function `f` and
workflow `w`. -/
theorem c3_fn_wraps_workflow_encodes_directly_witness :
    (middle_fn_inner exFnAdd = .ok exFnAddGen) ∧
    (exFnAddGen.entryBody.get? 3 =
        some (.letVar "output" (.structTuple exFnAddGen.outStruct.name (.var "output"))) ∧
      exFnAddGen.entryBody.get? 4 =
        some (.letVar "output_json" (.call "serde_json::value::to_value" [.var "output"]))) ∧
    (middle_workflow_inner exWorkflow = .ok exWorkflowGen) ∧
    (exWorkflowGen.entryBody.get? 3 =
        some (.letVar "output_json" (.call "serde_json::value::to_value" [.var "output"])) ∧
      exWorkflowGen.entryBody.all (fun s => !(s.wraps exWorkflowGen.outStruct.name)) = true) :=
  ⟨rfl,
    (c3_fn_wraps_workflow_encodes_directly exFnAdd exFnAddGen).1 rfl,
    rfl,
    (c3_fn_wraps_workflow_encodes_directly exWorkflow exWorkflowGen).2 rfl⟩

/-- Claim C7: under the syn well-formedness condition that a receiver can
only be the first parameter, the plain-function synthesizer fails exactly
on a descriptor whose first parameter is a receiver, or with no explicit
return type, or with a parameter bound by a destructuring pattern — and
otherwise generates the entry points. -/
theorem c7_descriptor_validation (f : ItemFn)
    (hsyn : ∀ a ∈ f.sig.inputs.tail, a.isReceiver = false) :
    (middle_fn_inner f).isOk = false ↔
      (firstIsReceiver f = true ∨ hasExplicitReturn f = false ∨
        ∃ a ∈ f.sig.inputs, a.isDestructuring = true) := by
  rw [middle_fn_inner_isOk]
  constructor
  · intro hfalse
    by_cases hret : hasExplicitReturn f = true
    · have hpo : (processArgs f.sig.inputs).isOk = false := by
        rw [hret, Bool.and_true] at hfalse
        exact hfalse
      have hex : ∃ e, processArgs f.sig.inputs = .error e := by
        cases hp : processArgs f.sig.inputs with
        | error e => exact ⟨e, rfl⟩
        | ok ps => rw [hp] at hpo; exact Bool.noConfusion hpo
      obtain ⟨a, ha, hacc⟩ := (processArgs_error_iff _).mp hex
      rcases (argAccepted_false_iff a).mp hacc with hrec | hdes
      · left
        cases hin : f.sig.inputs with
        | nil => rw [hin] at ha; cases ha
        | cons hd tl =>
          rw [hin] at ha
          rcases List.mem_cons.mp ha with rfl | hatl
          · rw [firstIsReceiver, hin]
            cases a with
            | receiver => rfl
            | typed p ty => simp [FnArg.isReceiver] at hrec
          · have h2 := hsyn a
            rw [hin] at h2
            have h3 := h2 hatl
            rw [h3] at hrec
            cases hrec
      · exact Or.inr (Or.inr ⟨a, ha, hdes⟩)
    · exact Or.inr (Or.inl (by simpa using hret))
  · intro hcond
    rcases hcond with hfst | hret | ⟨a, ha, hdes⟩
    · have hex : ∃ a ∈ f.sig.inputs, argAccepted a = false := by
        rw [firstIsReceiver] at hfst
        cases hin : f.sig.inputs with
        | nil => rw [hin] at hfst; cases hfst
        | cons hd tl =>
          rw [hin] at hfst
          cases hd with
          | receiver => exact ⟨.receiver, List.mem_cons_self _ _, rfl⟩
          | typed p ty => simp at hfst
      obtain ⟨e, he⟩ := (processArgs_error_iff _).mpr hex
      rw [he]
      rfl
    · rw [hret, Bool.and_false]
    · obtain ⟨e, he⟩ := (processArgs_error_iff _).mpr
        ⟨a, ha, (argAccepted_false_iff a).mpr (Or.inr hdes)⟩
      rw [he]
      rfl

/-- Witness for C7 at the descriptor `g(a: String)` with no return type. -/
theorem c7_descriptor_validation_witness :
    (∀ a ∈ exFnNoRet.sig.inputs.tail, a.isReceiver = false) ∧
    ((middle_fn_inner exFnNoRet).isOk = false ↔
      (firstIsReceiver exFnNoRet = true ∨ hasExplicitReturn exFnNoRet = false ∨
        ∃ a ∈ exFnNoRet.sig.inputs, a.isDestructuring = true)) :=
  ⟨by decide, c7_descriptor_validation exFnNoRet (by decide)⟩

/-- Claim C8: on an accepted descriptor, the generated Input Envelope has
exactly the declared parameters as fields — same names, same types, same
order, one per parameter — and the generated entry point calls the user
function with the envelope's fields in that declared order. -/
theorem c8_input_envelope_mirrors_params (f : ItemFn) (g : Generated)
    (h : middle_fn_inner f = .ok g) :
    g.inStruct.fields = declaredParams f.sig.inputs ∧
    g.inStruct.fields.length = f.sig.inputs.length ∧
    g.entryBody.get? 2 = some (.letVar "output" (.call f.sig.ident
      ((declaredParams f.sig.inputs).map (fun p => RExpr.field (.var "input") p.1)))) := by
  obtain ⟨params, out_sig, hproc, hout, rfl⟩ := middle_fn_inner_ok_inv f g h
  obtain ⟨hps, hall⟩ := processArgs_ok_eq f.sig.inputs params hproc
  subst hps
  refine ⟨rfl, declaredParams_length_of_accepted f.sig.inputs hall, ?_⟩
  show (fnEntryBody f.sig.ident _ ((declaredParams f.sig.inputs).map Prod.fst)).get? 2 = _
  simp only [fnEntryBody, List.map_map]
  rfl

/-- Witness for C8 at the spec's example descriptor
`f(a: String, b: u32) -> u32`. -/
theorem c8_input_envelope_mirrors_params_witness :
    (middle_fn_inner exFnAdd = .ok exFnAddGen) ∧
    (exFnAddGen.inStruct.fields = declaredParams exFnAdd.sig.inputs ∧
      exFnAddGen.inStruct.fields.length = exFnAdd.sig.inputs.length ∧
      exFnAddGen.entryBody.get? 2 = some (.letVar "output" (.call exFnAdd.sig.ident
        ((declaredParams exFnAdd.sig.inputs).map
          (fun p => RExpr.field (.var "input") p.1))))) :=
  ⟨rfl, c8_input_envelope_mirrors_params exFnAdd exFnAddGen rfl⟩

/-- Claim C9: decoding rejects malformed streams — any proper truncation of
an encoded supported value fails to decode (the wire format is prefix-free),
and any stream whose head is not a recognized tag byte fails to decode. -/
theorem c9_value_from_host_rejects (v : MValue) (p q : List Nat)
    (hs : supportedB v = true) (hsplit : encode v = p ++ q) (hq : q ≠ []) :
    value_from_host p = none ∧
    ∀ (b : Nat) (bs : List Nat), validTag b = false → value_from_host (b :: bs) = none := by
  constructor
  · show decode p = none
    cases hd : decodeVal (p.length + 1) p with
    | none => rw [decode, hd]; rfl
    | some out =>
      exfalso
      have h1 := decodeVal_extend (p.length + 1) p q out hd
      have hlen2 : (encode v).length = p.length + q.length := by
        rw [hsplit, List.length_append]
      have hqpos : 0 < q.length := List.length_pos.mpr hq
      have h2 := decodeVal_mono (p.length + 1) ((encode v).length + 1) (by omega)
        (p ++ q) _ h1
      rw [← hsplit] at h2
      have h3 := decodeVal_encode ((encode v).length + 1) v [] hs (by omega)
      rw [List.append_nil] at h3
      rw [h3] at h2
      injection h2 with h2
      have h4 : ([] : List Nat) = out.2 ++ q := congrArg Prod.snd h2
      exact hq (List.append_eq_nil.mp h4.symm).2
  · intro b bs hb
    show decode (b :: bs) = none
    rw [decode, decodeVal_invalid _ b bs hb]
    rfl

/-- Witness for C9: the two-byte truncation of the encoded string "AB"
fails to decode, and the reserved tag byte 0xc1 fails to decode. -/
theorem c9_value_from_host_rejects_witness :
    supportedB exStrValue = true ∧ encode exStrValue = [0xa2, 65] ++ [66] ∧
    ([66] : List Nat) ≠ [] ∧
    (value_from_host [0xa2, 65] = none ∧
      ∀ (b : Nat) (bs : List Nat), validTag b = false → value_from_host (b :: bs) = none) ∧
    validTag 0xc1 = false :=
  ⟨rfl, rfl, by decide,
    c9_value_from_host_rejects exStrValue [0xa2, 65] [66] rfl rfl (by decide),
    by decide⟩

/-- The concrete bad workflow descriptor has no `Resumable<...>`-shaped
return type. -/
theorem exWorkflowBadRet_not_resumable :
    ¬ ∃ inner, RetResumableForm exWorkflowBadRet inner := by
  rintro ⟨inner, t, hout, segs, ht, hlast⟩
  injection hout with hout
  subst hout
  injection ht with ht
  subst ht
  simp only [List.getLast?] at hlast
  injection hlast with hlast
  injection hlast with h1 h2
  simp at h1

/-- Claim C10: the workflow synthesizer rejects every descriptor whose
declared return type is not a path ending in `Resumable` applied in angle
brackets to exactly one type argument; on an accepted descriptor the
generated Output Envelope wraps that inner type argument, not the whole
`Resumable<...>` type. -/
theorem c10_workflow_return_validation (f : ItemFn) :
    ((¬ ∃ inner, RetResumableForm f inner) → (middle_workflow_inner f).isOk = false) ∧
    (∀ g, middle_workflow_inner f = .ok g →
      ∃ inner, RetResumableForm f inner ∧ g.outStruct.inner = inner) := by
  constructor
  · intro hno
    cases hok : middle_workflow_inner f with
    | error e => rfl
    | ok g =>
      exfalso
      obtain ⟨params, t, inner, hproc, hout, hex, _⟩ := middle_workflow_inner_ok_inv f g hok
      exact hno ⟨inner, t, hout, (extractResumableInner_ok_iff t inner).mp hex⟩
  · intro g hok
    obtain ⟨params, t, inner, hproc, hout, hex, rfl⟩ := middle_workflow_inner_ok_inv f g hok
    exact ⟨inner, ⟨t, hout, (extractResumableInner_ok_iff t inner).mp hex⟩, rfl⟩

/-- Witness for C10: the descriptor `r(a: u32) -> u32` is rejected, and the
accepted `w(a: u32) -> Resumable<u32>` gets an Output Envelope around the
inner `u32`. -/
theorem c10_workflow_return_validation_witness :
    (middle_workflow_inner exWorkflowBadRet).isOk = false ∧
    (∃ inner, RetResumableForm exWorkflow inner ∧
      exWorkflowGen.outStruct.inner = inner) :=
  ⟨(c10_workflow_return_validation exWorkflowBadRet).1 exWorkflowBadRet_not_resumable,
    (c10_workflow_return_validation exWorkflow).2 exWorkflowGen rfl⟩

end MiddleWasm

